import Mathlib

/-!
Verification of the batch MP3 renamer (batch_rename.py).

The development shallowly embeds the pure core of the program:

* `safe_filename`, `build_base_name` — the sanitizer and name builder;
* `unique_path` — the collision resolver (`unique_path` in the source),
  over an explicit finite list of names occupying the target directory;
* `derive_target`, `rename_one` — the decision engine and the per-file
  worker, with the tag-reading collaborator and the possibility of a
  filesystem rename failure supplied as explicit inputs;
* `runAll`, `aggregate` — the orchestration loop and the count
  aggregation performed in `main`;
* a small interleaving model of two concurrent workers sharing one
  directory, used to examine the check-then-rename window.

Unicode NFKC normalization (`unicodedata.normalize("NFKC", ...)`) is kept
as an explicit function parameter `nfkc`; general theorems hold for every
such function, and concrete evaluations instantiate it with the identity,
which is what NFKC normalization computes on the ASCII-only inputs used
there (`nfkcAscii`).
-/

namespace BatchRename

/-- Whitespace per Python: the characters matched by `\s` in a `re` str
pattern and stripped by `str.strip()` (code points 9–13, 28–32, 0x85,
0xA0, 0x1680, 0x2000–0x200A, 0x2028, 0x2029, 0x202F, 0x205F, 0x3000). -/
def pyIsSpace (c : Char) : Bool :=
  let n := c.toNat
  (9 ≤ n && n ≤ 13) || (28 ≤ n && n ≤ 32) || n == 0x85 || n == 0xA0 ||
    n == 0x1680 || (0x2000 ≤ n && n ≤ 0x200A) || n == 0x2028 ||
    n == 0x2029 || n == 0x202F || n == 0x205F || n == 0x3000

/-- ASCII control characters, the range deleted by
`re.sub(r"[\x00-\x1f]", "", t)`. -/
def isCtrlChar (c : Char) : Bool := c.toNat ≤ 31

/-- The filesystem-illegal characters of `_ILLEGAL_CHARS`:
backslash, slash, colon, double quote, star, question mark,
angle brackets, pipe. -/
def isIllegalChar (c : Char) : Bool :=
  c == '\\' || c == '/' || c == ':' || c == '"' || c == '*' ||
    c == '?' || c == '<' || c == '>' || c == '|'

/-- Remove the trailing run of characters satisfying `p`
(the right half of Python `str.strip`). -/
def stripRight (p : Char → Bool) : List Char → List Char
  | [] => []
  | c :: rest =>
    match stripRight p rest with
    | [] => if p c then [] else [c]
    | r => c :: r

/-- Python `str.strip` with character predicate `p`: remove the leading
and the trailing run of characters satisfying `p`. -/
def stripBoth (p : Char → Bool) (l : List Char) : List Char :=
  stripRight p (l.dropWhile p)

/-- `re.sub(r"\s+", " ", t)`: replace every maximal run of whitespace
characters by a single ASCII space. -/
def collapseWS : List Char → List Char
  | [] => []
  | [c] => if pyIsSpace c then [' '] else [c]
  | c1 :: c2 :: rest =>
    if pyIsSpace c1 && pyIsSpace c2 then collapseWS (c2 :: rest)
    else if pyIsSpace c1 then ' ' :: collapseWS (c2 :: rest)
    else c1 :: collapseWS (c2 :: rest)

/-- NFKC normalization restricted to ASCII input, on which it is the
identity; used only in concrete evaluations whose strings are ASCII. -/
def nfkcAscii : String → String := fun s => s

/-- The sanitization pipeline of `safe_filename` up to the emptiness
test: normalize (`nfkc`), strip, delete control characters, replace
illegal characters by a space, collapse whitespace, `strip(". ")`,
`strip()`. -/
def sanitizeCore (nfkc : String → String) (text : Option String) : List Char :=
  let t0 := (nfkc (text.getD "")).data
  let t1 := stripBoth pyIsSpace t0
  let t2 := t1.filter (fun c => !isCtrlChar c)
  let t3 := t2.map (fun c => if isIllegalChar c then ' ' else c)
  let t4 := collapseWS t3
  let t5 := stripBoth (fun c => c == '.' || c == ' ') t4
  stripBoth pyIsSpace t5

/-- The sanitization pipeline of `safe_filename` before the final
truncation: `sanitizeCore`, with the fall back to `"untitled"` when
everything vanished. -/
def preTruncData (nfkc : String → String) (text : Option String) : List Char :=
  if sanitizeCore nfkc text = [] then "untitled".data
  else sanitizeCore nfkc text

/-- `safe_filename(text, max_len)`: sanitize and truncate to `max_len`
characters (Python slices by code point, as does `List.take` over
`String.data`). -/
def safe_filename (nfkc : String → String) (text : Option String)
    (max_len : Nat) : String :=
  String.mk ((preTruncData nfkc text).take max_len)

/-- Python truthiness of an optional string: `None` and `""` are falsy. -/
def truthyStr : Option String → Bool
  | none => false
  | some s => !(s == "")

/-- Python `x or d` on an optional string `x`. -/
def pyOr (o : Option String) (d : String) : String :=
  match o with
  | none => d
  | some s => if s == "" then d else s

/-- `build_base_name(artist, title)`:
`f"{safe_filename(artist or "Unknown Artist")} - {safe_filename(title or "Unknown Title")}"`. -/
def build_base_name (nfkc : String → String)
    (artist title : Option String) : String :=
  safe_filename nfkc (some (pyOr artist "Unknown Artist")) 120 ++ " - " ++
    safe_filename nfkc (some (pyOr title "Unknown Title")) 120

/-- One decimal digit as a character (`'0'` .. `'9'`). -/
def digitChar (d : Nat) : Char := Char.ofNat (48 + d)

/-- Fuel-driven decimal digit list of `n` (most significant first);
`fuel ≥ n` makes the fuel immaterial, see `toDecimalAux_parse`. -/
def toDecimalAux : Nat → Nat → List Char
  | 0, _ => []
  | fuel + 1, n =>
    if n = 0 then [] else toDecimalAux fuel (n / 10) ++ [digitChar (n % 10)]

/-- Decimal rendering of a natural number, as produced by the Python
f-string interpolation of an `int`. -/
def decimal (n : Nat) : String :=
  if n = 0 then "0" else String.mk (toDecimalAux n n)

/-- The candidate name `f"{stem} ({n}){ext}"` tried by the collision
resolver for suffix `n`. -/
def suffixName (stem ext : String) (n : Nat) : String :=
  stem ++ " (" ++ decimal n ++ ")" ++ ext

/-- The `while True` loop of `unique_path`, made structural on an explicit
fuel; `none` means the fuel ran out.  `unique_path_loop_isSome` proves
that fuel `fs.length + 1` never runs out, so the loop in the source
always terminates. -/
def unique_path_loop (fs : List String) (stem ext : String) :
    Nat → Nat → Option String
  | 0, _ => none
  | fuel + 1, n =>
    if suffixName stem ext n ∈ fs then
      unique_path_loop fs stem ext fuel (n + 1)
    else some (suffixName stem ext n)

/-- `unique_path(directory, stem, ext)`: first try `f"{stem}{ext}"`, then
`f"{stem} (n){ext}"` for n = 2, 3, ...; the directory contents are the
explicit list `fs`, and `candidate.exists()` is membership in it.  The
fuel passed to the loop is proven sufficient (`unique_path_loop_isSome`),
so the `getD` default is never taken. -/
def unique_path (fs : List String) (stem ext : String) : String :=
  if stem ++ ext ∈ fs then
    (unique_path_loop fs stem ext (fs.length + 1) 2).getD (stem ++ ext)
  else stem ++ ext

/-- The `(artist, title)` record read from the ID3 tag; each field is
`None` or a string. -/
structure Metadata where
  artist : Option String
  title : Option String
deriving DecidableEq, Repr

/-- What the tag-reading collaborator (`eyed3.load`) does for a file:
raise an exception with the given detail, yield no tag object, or yield
a tag with the given artist and title attributes. -/
inductive TagRead where
  | exn (detail : String)
  | noTag
  | ok (m : Metadata)
deriving DecidableEq, Repr

/-- The `RenameResult` dataclass. -/
structure RenameResult where
  src : String
  dst : Option String
  status : String
  message : Option String
deriving DecidableEq, Repr

/-- `derive_target(src)`: compute the desired destination for `src`
(first component) or a reason to skip (second component).  `fs` is the
content of the directory of `src`; `tag` is what the tag reader did. -/
def derive_target (nfkc : String → String) (fs : List String)
    (src : String) (tag : TagRead) : Option String × Option String :=
  match tag with
  | .exn d => (none, some ("Exception reading tags: " ++ d))
  | .noTag => (none, some "No ID3 tag found")
  | .ok m =>
    if !truthyStr m.artist && !truthyStr m.title then
      (none, some "Missing artist and title tags")
    else if unique_path fs (build_base_name nfkc m.artist m.title) ".mp3"
        = src then
      (none, some "Already has desired name")
    else
      (some (unique_path fs (build_base_name nfkc m.artist m.title) ".mp3"),
       none)

/-- The effect of `src.rename(dst)` on the directory contents: `src`
disappears and `dst` is present afterwards (a POSIX rename silently
replaces an existing `dst`). -/
def fsRename (fs : List String) (src dst : String) : List String :=
  (fs.erase src).insert dst

/-- `rename_one(src, dry_run)`: derive the target, skip on a truthy skip
reason, simulate in dry-run mode, otherwise attempt the rename.
`renameErr = some e` means the `src.rename(dst)` call raised an
exception with message `e`; `none` means it succeeded.  Returns the
`RenameResult` together with the directory contents afterwards. -/
def rename_one (nfkc : String → String) (fs : List String) (src : String)
    (tag : TagRead) (dry_run : Bool) (renameErr : Option String) :
    RenameResult × List String :=
  if truthyStr (derive_target nfkc fs src tag).2 then
    (⟨src, none, "skipped", (derive_target nfkc fs src tag).2⟩, fs)
  else if dry_run then
    (⟨src, (derive_target nfkc fs src tag).1, "renamed", some "dry-run"⟩, fs)
  else
    match (derive_target nfkc fs src tag).1 with
    | none =>
      -- unreachable: derive_target never yields a falsy reason with no
      -- destination (derive_target_shape); Python would raise and catch
      -- a TypeError inside the same try block here.
      (⟨src, none, "error", some "TypeError"⟩, fs)
    | some d =>
      match renameErr with
      | some e => (⟨src, some d, "error", some e⟩, fs)
      | none => (⟨src, some d, "renamed", none⟩, fsRename fs src d)

/-- Sequential orchestration of `rename_one` over the file list, as the
worker pool does file by file (aggregate counts are order-insensitive);
`tagOf` is the tag reader, `errOf` tells which files fail the actual
filesystem rename.  Returns the outcome list and the final directory
contents. -/
def runAll (nfkc : String → String) (dry_run : Bool) (fs : List String)
    (files : List String) (tagOf : String → TagRead)
    (errOf : String → Option String) : List RenameResult × List String :=
  match files with
  | [] => ([], fs)
  | f :: rest =>
    ((rename_one nfkc fs f (tagOf f) dry_run (errOf f)).1 ::
       (runAll nfkc dry_run (rename_one nfkc fs f (tagOf f) dry_run (errOf f)).2
         rest tagOf errOf).1,
     (runAll nfkc dry_run (rename_one nfkc fs f (tagOf f) dry_run (errOf f)).2
       rest tagOf errOf).2)

/-- The counting loop of `main`: statuses `"renamed"` and `"skipped"`
bump their counters, anything else bumps `errors`. -/
def aggregate (rs : List RenameResult) : Nat × Nat × Nat :=
  rs.foldl
    (fun t r =>
      if r.status = "renamed" then (t.1 + 1, t.2.1, t.2.2)
      else if r.status = "skipped" then (t.1, t.2.1 + 1, t.2.2)
      else (t.1, t.2.1, t.2.2 + 1))
    (0, 0, 0)

/- Helper lemmas about the stripping and collapsing primitives. -/

/-- State of two concurrent workers sharing one directory: the directory
contents and the destination each worker has resolved so far. -/
structure WState where
  fs : List String
  dst1 : Option String
  dst2 : Option String
deriving DecidableEq, Repr

/-- An atomic step of one of the two workers: resolve the destination
(the `derive_target` call, which reads the shared directory), or perform
the filesystem rename of the previously resolved destination. -/
inductive Act where
  | res1
  | res2
  | ren1
  | ren2
deriving DecidableEq, Repr

/-- Interleaving semantics of the two workers: each step runs the
corresponding fragment of `rename_one` against the shared directory. -/
def stepAct (nfkc : String → String) (src1 src2 : String)
    (tag1 tag2 : TagRead) (s : WState) : Act → WState
  | .res1 => { s with dst1 := (derive_target nfkc s.fs src1 tag1).1 }
  | .res2 => { s with dst2 := (derive_target nfkc s.fs src2 tag2).1 }
  | .ren1 =>
    match s.dst1 with
    | some d => { s with fs := fsRename s.fs src1 d }
    | none => s
  | .ren2 =>
    match s.dst2 with
    | some d => { s with fs := fsRename s.fs src2 d }
    | none => s

/-- Run a schedule (a list of steps) of the two workers from a state. -/
def runSched (nfkc : String → String) (src1 src2 : String)
    (tag1 tag2 : TagRead) (s : WState) (sched : List Act) : WState :=
  sched.foldl (stepAct nfkc src1 src2 tag1 tag2) s

theorem stripRight_subset (p : Char → Bool) :
    ∀ l : List Char, ∀ c ∈ stripRight p l, c ∈ l := by
  intro l
  induction l with
  | nil => intro c hc; simp [stripRight] at hc
  | cons a rest ih =>
    intro c hc
    rw [stripRight] at hc
    cases h : stripRight p rest with
    | nil =>
      rw [h] at hc
      by_cases hp : p a
      · simp [hp] at hc
      · simp [hp] at hc; simp [hc]
    | cons b r =>
      rw [h] at hc
      rcases List.mem_cons.mp hc with rfl | hc
      · exact List.mem_cons_self _ _
      · exact List.mem_cons_of_mem _ (ih c (h ▸ hc))

theorem stripRight_getLast?_not (p : Char → Bool) :
    ∀ l : List Char, ∀ c, (stripRight p l).getLast? = some c → p c = false := by
  intro l
  induction l with
  | nil => intro c hc; simp [stripRight] at hc
  | cons a rest ih =>
    intro c hc
    rw [stripRight] at hc
    cases h : stripRight p rest with
    | nil =>
      rw [h] at hc
      by_cases hp : p a
      · simp [hp] at hc
      · simp [hp] at hc
        subst hc
        exact Bool.not_eq_true _ ▸ (by simpa using hp)
    | cons b r =>
      rw [h] at hc
      rw [List.getLast?_cons_cons] at hc
      exact ih c (h ▸ hc)

theorem stripRight_head_eq (p : Char → Bool) :
    ∀ l : List Char, ∀ c r, stripRight p l = c :: r → ∃ t, l = c :: t := by
  intro l
  induction l with
  | nil => intro c r hc; simp [stripRight] at hc
  | cons a rest ih =>
    intro c r hc
    rw [stripRight] at hc
    cases h : stripRight p rest with
    | nil =>
      rw [h] at hc
      by_cases hp : p a
      · simp [hp] at hc
      · simp [hp] at hc
        exact ⟨rest, by rw [hc.1]⟩
    | cons b rr =>
      rw [h] at hc
      exact ⟨rest, by rw [(List.cons.injEq _ _ _ _).mp hc |>.1]⟩

theorem stripRight_eq_self (p : Char → Bool) :
    ∀ l : List Char, (∀ c, l.getLast? = some c → p c = false) →
      stripRight p l = l := by
  intro l
  induction l with
  | nil => intro _; simp [stripRight]
  | cons a rest ih =>
    intro hlast
    rw [stripRight]
    cases rest with
    | nil =>
      have : p a = false := hlast a (by simp)
      simp [stripRight, this]
    | cons b rr =>
      have : stripRight p (b :: rr) = b :: rr := by
        apply ih
        intro c hc
        exact hlast c (by rw [List.getLast?_cons_cons]; exact hc)
      rw [this]

theorem dropWhile_head?_not (p : Char → Bool) (l : List Char) :
    ∀ c, (l.dropWhile p).head? = some c → p c = false := by
  induction l with
  | nil => intro c hc; simp [List.dropWhile] at hc
  | cons a rest ih =>
    intro c hc
    rw [List.dropWhile_cons] at hc
    by_cases hp : p a
    · exact ih c (by simpa [hp] using hc)
    · simp [hp] at hc
      subst hc
      simpa using hp

theorem dropWhile_eq_self (p : Char → Bool) (l : List Char)
    (h : ∀ c, l.head? = some c → p c = false) : l.dropWhile p = l := by
  cases l with
  | nil => rfl
  | cons a rest =>
    have : p a = false := h a rfl
    simp [List.dropWhile_cons, this]

theorem collapseWS_mem :
    ∀ l : List Char, ∀ c ∈ collapseWS l,
      c = ' ' ∨ (c ∈ l ∧ pyIsSpace c = false) := by
  intro l
  induction l with
  | nil => intro c hc; simp [collapseWS] at hc
  | cons c1 rest ih =>
    intro c hc
    cases rest with
    | nil =>
      rw [collapseWS] at hc
      by_cases hp : pyIsSpace c1
      · simp [hp] at hc; left; exact hc
      · simp [hp] at hc
        right
        refine ⟨by simp [hc], by subst hc; simpa using hp⟩
    | cons c2 rr =>
      rw [collapseWS] at hc
      by_cases h12 : pyIsSpace c1 && pyIsSpace c2
      · rw [if_pos h12] at hc
        rcases ih c hc with h | h
        · exact Or.inl h
        · exact Or.inr ⟨List.mem_cons_of_mem _ h.1, h.2⟩
      · rw [if_neg h12] at hc
        by_cases h1 : pyIsSpace c1
        · simp only [if_pos h1] at hc
          rcases List.mem_cons.mp hc with rfl | hc
          · exact Or.inl rfl
          · rcases ih c hc with h | h
            · exact Or.inl h
            · exact Or.inr ⟨List.mem_cons_of_mem _ h.1, h.2⟩
        · simp only [if_neg h1] at hc
          rcases List.mem_cons.mp hc with rfl | hc
          · exact Or.inr ⟨List.mem_cons_self _ _, by simpa using h1⟩
          · rcases ih c hc with h | h
            · exact Or.inl h
            · exact Or.inr ⟨List.mem_cons_of_mem _ h.1, h.2⟩

theorem head?_mem {α : Type} {l : List α} {c : α} (h : l.head? = some c) :
    c ∈ l := by
  cases l with
  | nil => simp at h
  | cons a rest =>
    simp only [List.head?_cons, Option.some.injEq] at h
    simp [h.symm]

theorem getLast?_mem {α : Type} {l : List α} {c : α}
    (h : l.getLast? = some c) : c ∈ l :=
  List.mem_of_mem_getLast? (by simp [h])

theorem stripBoth_subset (p : Char → Bool) (l : List Char) :
    ∀ c ∈ stripBoth p l, c ∈ l :=
  fun c hc =>
    (List.dropWhile_sublist p).subset (stripRight_subset p _ c hc)

theorem stripBoth_getLast?_not (p : Char → Bool) (l : List Char) :
    ∀ c, (stripBoth p l).getLast? = some c → p c = false :=
  fun c hc => stripRight_getLast?_not p _ c hc

theorem stripBoth_head?_not (p : Char → Bool) (l : List Char) :
    ∀ c, (stripBoth p l).head? = some c → p c = false := by
  intro c hc
  unfold stripBoth at hc
  cases h : stripRight p (l.dropWhile p) with
  | nil => rw [h] at hc; simp at hc
  | cons b r =>
    rw [h] at hc
    simp only [List.head?_cons, Option.some.injEq] at hc
    obtain ⟨t, ht⟩ := stripRight_head_eq p _ _ _ h
    subst hc
    exact dropWhile_head?_not p l b (by rw [ht]; rfl)

/-- Every character surviving the control-char filter and the
illegal-char replacement is neither a control nor an illegal one. -/
theorem mapped_chars (l : List Char) :
    ∀ c ∈ (l.filter (fun c => !isCtrlChar c)).map
        (fun c => if isIllegalChar c then ' ' else c),
      isIllegalChar c = false ∧ isCtrlChar c = false := by
  intro c hc
  rcases List.mem_map.mp hc with ⟨a, ha, hfa⟩
  have hctrl : isCtrlChar a = false := by
    have := (List.mem_filter.mp ha).2
    simpa using this
  by_cases hill : isIllegalChar a
  · rw [if_pos hill] at hfa
    subst hfa
    exact ⟨by decide, by decide⟩
  · rw [if_neg hill] at hfa
    subst hfa
    exact ⟨by simpa using hill, hctrl⟩

/-- After collapsing whitespace and both strips, every character keeps
any property that held on the collapsed list and on the space. -/
theorem sanitized_chars (l : List Char)
    (hl : ∀ c ∈ l, isIllegalChar c = false ∧ isCtrlChar c = false) :
    ∀ c ∈ stripBoth pyIsSpace
        (stripBoth (fun c => c == '.' || c == ' ') (collapseWS l)),
      isIllegalChar c = false ∧ isCtrlChar c = false ∧
        (pyIsSpace c = true → c = ' ') := by
  intro c hc
  have h4 : c ∈ collapseWS l :=
    stripBoth_subset _ _ c (stripBoth_subset _ _ c hc)
  rcases collapseWS_mem l c h4 with h | h
  · subst h
    exact ⟨by decide, by decide, fun _ => rfl⟩
  · rcases hl c h.1 with ⟨h1, h2⟩
    exact ⟨h1, h2, fun hsp => by rw [h.2] at hsp; cases hsp⟩

/-- Collapsing guarantees that all remaining whitespace is the plain
space, so the trailing `strip()` after `strip(". ")` strips nothing. -/
theorem stripBoth_space_fix (l : List Char) :
    stripBoth pyIsSpace
        (stripBoth (fun c => c == '.' || c == ' ') (collapseWS l)) =
      stripBoth (fun c => c == '.' || c == ' ') (collapseWS l) := by
  set m := stripBoth (fun c => c == '.' || c == ' ') (collapseWS l) with hm
  have hspc : ∀ c ∈ m, pyIsSpace c = true → c = ' ' := by
    intro c hcm hsp
    rcases collapseWS_mem l c (stripBoth_subset _ _ c hcm) with h | h
    · exact h
    · rw [h.2] at hsp; cases hsp
  have hhead : ∀ c, m.head? = some c → pyIsSpace c = false := by
    intro c hc
    have hd := stripBoth_head?_not (fun c => c == '.' || c == ' ') _ c hc
    by_cases hs : pyIsSpace c
    · have : c = ' ' := hspc c (head?_mem hc) hs
      subst this
      simp at hd
    · simpa using hs
  have hlast : ∀ c, m.getLast? = some c → pyIsSpace c = false := by
    intro c hc
    have hd := stripBoth_getLast?_not (fun c => c == '.' || c == ' ') _ c hc
    by_cases hs : pyIsSpace c
    · have : c = ' ' := hspc c (getLast?_mem hc) hs
      subst this
      simp at hd
    · simpa using hs
  unfold stripBoth
  rw [dropWhile_eq_self pyIsSpace m hhead]
  exact stripRight_eq_self pyIsSpace m hlast

/-- The last character of the sanitized core is neither whitespace nor
a period. -/
theorem sanitized_getLast (l : List Char) :
    ∀ c, (stripBoth pyIsSpace
        (stripBoth (fun c => c == '.' || c == ' ') (collapseWS l))).getLast? =
          some c →
      pyIsSpace c = false ∧ c ≠ '.' := by
  intro c hc
  rw [stripBoth_space_fix] at hc
  have hd := stripBoth_getLast?_not (fun c => c == '.' || c == ' ') _ c hc
  have hne : c ≠ '.' := by
    intro h; subst h; simp at hd
  refine ⟨?_, hne⟩
  by_cases hs : pyIsSpace c
  · rcases collapseWS_mem l c (stripBoth_subset _ _ c (getLast?_mem hc)) with
      h | h
    · subst h; simp at hd
    · rw [h.2] at hs; cases hs
  · simpa using hs

/-- `sanitizeCore` with its let chain spelled out. -/
theorem sanitizeCore_eq (nfkc : String → String) (text : Option String) :
    sanitizeCore nfkc text =
      stripBoth pyIsSpace (stripBoth (fun c => c == '.' || c == ' ')
        (collapseWS
          (((stripBoth pyIsSpace (nfkc (text.getD "")).data).filter
              (fun c => !isCtrlChar c)).map
            (fun c => if isIllegalChar c then ' ' else c)))) := rfl

theorem untitled_chars :
    ∀ c ∈ "untitled".data,
      isIllegalChar c = false ∧ isCtrlChar c = false ∧
        (pyIsSpace c = true → c = ' ') := by
  intro c hc
  have hall : "untitled".data.all
      (fun c => !isIllegalChar c && !isCtrlChar c && !pyIsSpace c) = true := by
    decide
  have h := List.all_eq_true.mp hall c hc
  simp only [Bool.and_eq_true, Bool.not_eq_true'] at h
  exact ⟨h.1.1, h.1.2, fun hsp => by rw [h.2] at hsp; cases hsp⟩

theorem preTruncData_ne_nil (nfkc : String → String) (text : Option String) :
    preTruncData nfkc text ≠ [] := by
  unfold preTruncData
  split
  · decide
  · next h => exact h

theorem preTruncData_chars (nfkc : String → String) (text : Option String) :
    ∀ c ∈ preTruncData nfkc text,
      isIllegalChar c = false ∧ isCtrlChar c = false ∧
        (pyIsSpace c = true → c = ' ') := by
  intro c hc
  unfold preTruncData at hc
  split at hc
  · exact untitled_chars c hc
  · rw [sanitizeCore_eq] at hc
    exact sanitized_chars _ (mapped_chars _) c hc

theorem preTruncData_head?_not (nfkc : String → String) (text : Option String) :
    ∀ c, (preTruncData nfkc text).head? = some c → pyIsSpace c = false := by
  intro c hc
  unfold preTruncData at hc
  split at hc
  · have h : ("untitled".data).head? = some 'u' := by decide
    rw [h, Option.some.injEq] at hc
    subst hc
    decide
  · rw [sanitizeCore_eq] at hc
    exact stripBoth_head?_not pyIsSpace _ c hc

theorem preTruncData_getLast?_not (nfkc : String → String)
    (text : Option String) :
    ∀ c, (preTruncData nfkc text).getLast? = some c →
      pyIsSpace c = false ∧ c ≠ '.' := by
  intro c hc
  unfold preTruncData at hc
  split at hc
  · have h : ("untitled".data).getLast? = some 'd' := by decide
    rw [h, Option.some.injEq] at hc
    subst hc
    exact ⟨by decide, by decide⟩
  · rw [sanitizeCore_eq] at hc
    exact sanitized_getLast _ c hc

/- The decimal rendering is injective: parsing its digit list recovers
the number. -/

theorem toDecimalAux_parse :
    ∀ fuel n, n ≤ fuel →
      (toDecimalAux fuel n).foldl (fun a c => a * 10 + (c.toNat - 48)) 0 = n := by
  intro fuel
  induction fuel with
  | zero =>
    intro n h
    have hn : n = 0 := by omega
    subst hn
    rfl
  | succ f ih =>
    intro n h
    by_cases hn : n = 0
    · subst hn
      simp [toDecimalAux]
    · rw [toDecimalAux, if_neg hn, List.foldl_append]
      rw [ih (n / 10) (by omega)]
      have h10 : n % 10 < 10 := Nat.mod_lt _ (by decide)
      have hd : (digitChar (n % 10)).toNat = 48 + n % 10 := by
        set k := n % 10 with hk
        interval_cases k <;> decide
      simp only [List.foldl_cons, List.foldl_nil, hd]
      omega

theorem decimal_parse (n : Nat) :
    (decimal n).data.foldl (fun a c => a * 10 + (c.toNat - 48)) 0 = n := by
  unfold decimal
  by_cases hn : n = 0
  · subst hn
    rfl
  · rw [if_neg hn]
    exact toDecimalAux_parse n n le_rfl

theorem decimal_data_inj {n m : Nat}
    (h : (decimal n).data = (decimal m).data) : n = m := by
  have hn := decimal_parse n
  have hm := decimal_parse m
  rw [h, hm] at hn
  exact hn.symm

/-- Distinct suffixes give distinct candidate names. -/
theorem suffixName_inj (stem ext : String) {n m : Nat}
    (h : suffixName stem ext n = suffixName stem ext m) : n = m := by
  unfold suffixName at h
  have hd := congrArg String.data h
  simp only [String.data_append] at hd
  have h1 := List.append_cancel_right hd
  have h2 := List.append_cancel_right h1
  have h3 := List.append_cancel_left h2
  exact decimal_data_inj h3

/-- If the loop runs out of fuel, every candidate it looked at was
occupied. -/
theorem unique_path_loop_none (fs : List String) (stem ext : String) :
    ∀ fuel n, unique_path_loop fs stem ext fuel n = none →
      ∀ i < fuel, suffixName stem ext (n + i) ∈ fs := by
  intro fuel
  induction fuel with
  | zero => intro n _ i hi; omega
  | succ f ih =>
    intro n h i hi
    rw [unique_path_loop] at h
    by_cases hc : suffixName stem ext n ∈ fs
    · rw [if_pos hc] at h
      cases i with
      | zero => simpa using hc
      | succ j =>
        have hj := ih (n + 1) h j (by omega)
        have : n + (j + 1) = n + 1 + j := by omega
        rw [this]
        exact hj
    · rw [if_neg hc] at h
      cases h

/-- Pigeonhole: with fuel one more than the number of occupied names,
the loop always finds a free candidate — the `while True` loop of
`unique_path` terminates after at most one trial per occupied name
plus one. -/
theorem unique_path_loop_isSome (fs : List String) (stem ext : String)
    (n : Nat) :
    ∃ p, unique_path_loop fs stem ext (fs.length + 1) n = some p := by
  by_contra h
  push_neg at h
  have hnone : unique_path_loop fs stem ext (fs.length + 1) n = none := by
    cases hres : unique_path_loop fs stem ext (fs.length + 1) n with
    | none => rfl
    | some p => exact absurd hres (h p)
  have hall := unique_path_loop_none fs stem ext _ n hnone
  have hinj : Set.InjOn (fun i => suffixName stem ext (n + i))
      ↑(Finset.range (fs.length + 1)) := by
    intro a _ b _ hab
    have := suffixName_inj stem ext hab
    omega
  have hsub : (Finset.range (fs.length + 1)).image
      (fun i => suffixName stem ext (n + i)) ⊆ fs.toFinset := by
    intro x hx
    rcases Finset.mem_image.mp hx with ⟨i, hi, rfl⟩
    exact List.mem_toFinset.mpr (hall i (Finset.mem_range.mp hi))
  have hcard := Finset.card_le_card hsub
  rw [Finset.card_image_of_injOn hinj, Finset.card_range] at hcard
  have := List.toFinset_card_le fs
  omega

/-- What a successful loop returns: the first free candidate, every
earlier one being occupied. -/
theorem unique_path_loop_spec (fs : List String) (stem ext : String) :
    ∀ fuel n p, unique_path_loop fs stem ext fuel n = some p →
      ∃ k, p = suffixName stem ext (n + k) ∧ p ∉ fs ∧
        ∀ j < k, suffixName stem ext (n + j) ∈ fs := by
  intro fuel
  induction fuel with
  | zero => intro n p h; cases h
  | succ f ih =>
    intro n p h
    rw [unique_path_loop] at h
    by_cases hc : suffixName stem ext n ∈ fs
    · rw [if_pos hc] at h
      obtain ⟨k, hk1, hk2, hk3⟩ := ih (n + 1) p h
      refine ⟨k + 1, by rw [hk1]; congr 1; omega, hk2, ?_⟩
      intro j hj
      cases j with
      | zero => simpa using hc
      | succ i =>
        have hi := hk3 i (by omega)
        have : n + (i + 1) = n + 1 + i := by omega
        rw [this]
        exact hi
    · rw [if_neg hc] at h
      have hp : p = suffixName stem ext n :=
        ((Option.some.injEq _ _).mp h).symm
      refine ⟨0, by rw [hp, Nat.add_zero], by rw [hp]; exact hc,
        fun j hj => absurd hj (by omega)⟩

/-- The path the resolver returns is never occupied. -/
theorem unique_path_not_mem (fs : List String) (stem ext : String) :
    unique_path fs stem ext ∉ fs := by
  unfold unique_path
  by_cases hb : stem ++ ext ∈ fs
  · rw [if_pos hb]
    obtain ⟨p, hp⟩ := unique_path_loop_isSome fs stem ext 2
    rw [hp]
    obtain ⟨k, _, h2, _⟩ := unique_path_loop_spec fs stem ext _ 2 p hp
    simpa using h2
  · rw [if_neg hb]
    exact hb

/-- C2 (amended): for every normalization function and every input,
including the absent one, `safe_filename` with its default `max_len` of
120 terminates and is deterministic, returns a non-empty string of at
most 120 characters containing no filesystem-illegal characters and no
control characters and not starting with whitespace; and whenever the
pre-truncation result already fits in 120 characters, the result also
ends in neither whitespace nor a period (the final truncation step can
reintroduce a trailing space or period, see the counterexample). -/
theorem claim_C2_sanitizer (nfkc : String → String) (text : Option String) :
    safe_filename nfkc text 120 = safe_filename nfkc text 120 ∧
    safe_filename nfkc text 120 ≠ "" ∧
    (safe_filename nfkc text 120).length ≤ 120 ∧
    (∀ c ∈ (safe_filename nfkc text 120).data,
      isIllegalChar c = false ∧ isCtrlChar c = false) ∧
    (∀ c, (safe_filename nfkc text 120).data.head? = some c →
      pyIsSpace c = false) ∧
    ((preTruncData nfkc text).length ≤ 120 →
      ∀ c, (safe_filename nfkc text 120).data.getLast? = some c →
        pyIsSpace c = false ∧ c ≠ '.') := by
  have hdata : (safe_filename nfkc text 120).data =
      (preTruncData nfkc text).take 120 := rfl
  refine ⟨rfl, ?_, ?_, ?_, ?_, ?_⟩
  · intro h
    have h' : (preTruncData nfkc text).take 120 = [] := congrArg String.data h
    rcases List.take_eq_nil_iff.mp h' with h120 | hnil
    · cases h120
    · exact preTruncData_ne_nil nfkc text hnil
  · show ((preTruncData nfkc text).take 120).length ≤ 120
    rw [List.length_take]
    exact min_le_left _ _
  · intro c hc
    rw [hdata] at hc
    have := preTruncData_chars nfkc text c (List.take_subset _ _ hc)
    exact ⟨this.1, this.2.1⟩
  · intro c hc
    rw [hdata, List.head?_take] at hc
    simp only [if_neg (by decide : ¬(120 = 0))] at hc
    exact preTruncData_head?_not nfkc text c hc
  · intro hlen c hc
    rw [hdata, List.take_of_length_le hlen] at hc
    exact preTruncData_getLast?_not nfkc text c hc

/-- C2 counterexample: on the 121-character ASCII input of 119 letters
a, a space and a letter b, the sanitizer truncates after the
trailing-whitespace strip and returns a string whose last character is
a space — the claimed "no trailing whitespace, does not end in space"
fails on the code. -/
theorem claim_C2_counterexample :
    (safe_filename nfkcAscii
        (some (String.mk (List.replicate 119 'a' ++ [' ', 'b'])))
        120).data.getLast? = some ' ' ∧
      pyIsSpace ' ' = true := by
  constructor
  · decide
  · decide

/-- C2 witness: the amended theorem applied at the concrete ASCII input
"Hello", whose pre-truncation result fits in 120 characters and ends in
the letter o. -/
theorem claim_C2_witness : pyIsSpace 'o' = false ∧ 'o' ≠ '.' :=
  (claim_C2_sanitizer nfkcAscii (some "Hello")).2.2.2.2.2
    (by decide) 'o' (by decide)

/-- C4: resolver correctness — on an empty directory the base name is
returned; on {"X.mp3", "X (2).mp3"} the result is "X (3).mp3"; in
general the result is never occupied, the base name is returned when
free, and otherwise the result is the candidate with the lowest free
numeric suffix, all smaller suffixes from 2 on being occupied. -/
theorem claim_C4_resolver :
    unique_path [] "Y" ".mp3" = "Y.mp3" ∧
    unique_path ["X.mp3", "X (2).mp3"] "X" ".mp3" = "X (3).mp3" ∧
    (∀ fs stem ext, unique_path fs stem ext ∉ fs) ∧
    (∀ fs stem ext, stem ++ ext ∉ fs → unique_path fs stem ext = stem ++ ext) ∧
    (∀ fs stem ext, stem ++ ext ∈ fs →
      ∃ k, unique_path fs stem ext = suffixName stem ext (2 + k) ∧
        suffixName stem ext (2 + k) ∉ fs ∧
        ∀ j < k, suffixName stem ext (2 + j) ∈ fs) := by
  refine ⟨by decide, by decide, unique_path_not_mem, ?_, ?_⟩
  · intro fs stem ext hb
    unfold unique_path
    rw [if_neg hb]
  · intro fs stem ext hb
    unfold unique_path
    rw [if_pos hb]
    obtain ⟨p, hp⟩ := unique_path_loop_isSome fs stem ext 2
    obtain ⟨k, hk1, hk2, hk3⟩ := unique_path_loop_spec fs stem ext _ 2 p hp
    exact ⟨k, by rw [hp]; exact hk1, by rw [← hk1]; exact hk2, hk3⟩

/-- C4 witness: the general parts applied to the concrete occupied
directory {"X.mp3", "X (2).mp3"}. -/
theorem claim_C4_witness :
    unique_path ["X.mp3", "X (2).mp3"] "Z" ".mp3" = "Z.mp3" ∧
    ∃ k, unique_path ["X.mp3", "X (2).mp3"] "X" ".mp3" =
        suffixName "X" ".mp3" (2 + k) ∧
      suffixName "X" ".mp3" (2 + k) ∉ ["X.mp3", "X (2).mp3"] ∧
      ∀ j < k, suffixName "X" ".mp3" (2 + j) ∈ ["X.mp3", "X (2).mp3"] :=
  ⟨claim_C4_resolver.2.2.2.1 ["X.mp3", "X (2).mp3"] "Z" ".mp3" (by decide),
   claim_C4_resolver.2.2.2.2 ["X.mp3", "X (2).mp3"] "X" ".mp3" (by decide)⟩

/-- C9: termination of the resolver — for every finite occupied set the
suffix loop, started at any suffix, reaches a free candidate within one
trial per occupied name plus one, because the candidate names are
pairwise distinct and only finitely many names are occupied. -/
theorem claim_C9_termination (fs : List String) (stem ext : String)
    (n : Nat) :
    (∃ p, unique_path_loop fs stem ext (fs.length + 1) n = some p ∧
      p ∉ fs) ∧
    (∀ i j : Nat, i ≠ j → suffixName stem ext i ≠ suffixName stem ext j) := by
  constructor
  · obtain ⟨p, hp⟩ := unique_path_loop_isSome fs stem ext n
    obtain ⟨k, _, h2, _⟩ := unique_path_loop_spec fs stem ext _ n p hp
    exact ⟨p, hp, h2⟩
  · intro i j hne heq
    exact hne (suffixName_inj stem ext heq)

/- Shape of derive_target results and equations for rename_one. -/

theorem data_nil_eq_empty (s : String) (h : s.data = []) : s = "" := by
  cases s with
  | mk d =>
    have hd : d = [] := h
    subst hd
    rfl

theorem append_ne_empty_left (s t : String) (h : s ≠ "") : s ++ t ≠ "" := by
  intro he
  have hd : s.data ++ t.data = [] := by
    rw [← String.data_append, he]
  exact h (data_nil_eq_empty s (List.append_eq_nil.mp hd).1)

theorem truthyStr_some (s : String) (h : s ≠ "") :
    truthyStr (some s) = true := by
  simp [truthyStr, h]

/-- `derive_target` returns either no destination and a non-empty skip
reason, or a destination and no reason. -/
theorem derive_target_shape (nfkc : String → String) (fs : List String)
    (src : String) (tag : TagRead) :
    (∃ r, derive_target nfkc fs src tag = (none, some r) ∧ r ≠ "") ∨
    (∃ d, derive_target nfkc fs src tag = (some d, none)) := by
  cases tag with
  | exn d =>
    left
    exact ⟨_, rfl, append_ne_empty_left _ _ (by decide)⟩
  | noTag => left; exact ⟨_, rfl, by decide⟩
  | ok m =>
    simp only [derive_target]
    by_cases hmt : (!truthyStr m.artist && !truthyStr m.title) = true
    · rw [if_pos hmt]; left; exact ⟨_, rfl, by decide⟩
    · rw [if_neg hmt]
      by_cases hds :
          unique_path fs (build_base_name nfkc m.artist m.title) ".mp3" = src
      · rw [if_pos hds]; left; exact ⟨_, rfl, by decide⟩
      · rw [if_neg hds]; right; exact ⟨_, rfl⟩

theorem rename_one_eq_skip (nfkc : String → String) (fs : List String)
    (src : String) (tag : TagRead) (dry : Bool) (err : Option String)
    {r : String} (h : derive_target nfkc fs src tag = (none, some r))
    (hr : r ≠ "") :
    rename_one nfkc fs src tag dry err =
      (⟨src, none, "skipped", some r⟩, fs) := by
  unfold rename_one
  rw [h]
  simp only [truthyStr_some r hr, if_pos]

theorem rename_one_eq_dry (nfkc : String → String) (fs : List String)
    (src : String) (tag : TagRead) (err : Option String)
    {d : String} (h : derive_target nfkc fs src tag = (some d, none)) :
    rename_one nfkc fs src tag true err =
      (⟨src, some d, "renamed", some "dry-run"⟩, fs) := by
  unfold rename_one
  rw [h]
  rfl

theorem rename_one_eq_renamed (nfkc : String → String) (fs : List String)
    (src : String) (tag : TagRead)
    {d : String} (h : derive_target nfkc fs src tag = (some d, none)) :
    rename_one nfkc fs src tag false none =
      (⟨src, some d, "renamed", none⟩, fsRename fs src d) := by
  unfold rename_one
  rw [h]
  rfl

theorem rename_one_eq_error (nfkc : String → String) (fs : List String)
    (src : String) (tag : TagRead) (e : String)
    {d : String} (h : derive_target nfkc fs src tag = (some d, none)) :
    rename_one nfkc fs src tag false (some e) =
      (⟨src, some d, "error", some e⟩, fs) := by
  unfold rename_one
  rw [h]
  rfl

/-- Every outcome carries one of the three statuses. -/
theorem rename_one_status (nfkc : String → String) (fs : List String)
    (src : String) (tag : TagRead) (dry : Bool) (err : Option String) :
    (rename_one nfkc fs src tag dry err).1.status = "renamed" ∨
    (rename_one nfkc fs src tag dry err).1.status = "skipped" ∨
    (rename_one nfkc fs src tag dry err).1.status = "error" := by
  rcases derive_target_shape nfkc fs src tag with ⟨r, hdt, hr⟩ | ⟨d, hdt⟩
  · rw [rename_one_eq_skip nfkc fs src tag dry err hdt hr]
    exact Or.inr (Or.inl rfl)
  · cases dry with
    | true =>
      rw [rename_one_eq_dry nfkc fs src tag err hdt]
      exact Or.inl rfl
    | false =>
      cases err with
      | none =>
        rw [rename_one_eq_renamed nfkc fs src tag hdt]
        exact Or.inl rfl
      | some e =>
        rw [rename_one_eq_error nfkc fs src tag e hdt]
        exact Or.inr (Or.inr rfl)

/-- The directory after a worker step: unchanged, or the rename of the
source to some destination. -/
theorem rename_one_fs (nfkc : String → String) (fs : List String)
    (src : String) (tag : TagRead) (dry : Bool) (err : Option String) :
    (rename_one nfkc fs src tag dry err).2 = fs ∨
    ∃ d, (rename_one nfkc fs src tag dry err).2 = fsRename fs src d := by
  rcases derive_target_shape nfkc fs src tag with ⟨r, hdt, hr⟩ | ⟨d, hdt⟩
  · rw [rename_one_eq_skip nfkc fs src tag dry err hdt hr]
    exact Or.inl rfl
  · cases dry with
    | true =>
      rw [rename_one_eq_dry nfkc fs src tag err hdt]
      exact Or.inl rfl
    | false =>
      cases err with
      | none =>
        rw [rename_one_eq_renamed nfkc fs src tag hdt]
        exact Or.inr ⟨d, rfl⟩
      | some e =>
        rw [rename_one_eq_error nfkc fs src tag e hdt]
        exact Or.inl rfl

/-- Dry-run never touches the directory. -/
theorem rename_one_dry_fs (nfkc : String → String) (fs : List String)
    (src : String) (tag : TagRead) (err : Option String) :
    (rename_one nfkc fs src tag true err).2 = fs := by
  rcases derive_target_shape nfkc fs src tag with ⟨r, hdt, hr⟩ | ⟨d, hdt⟩
  · rw [rename_one_eq_skip nfkc fs src tag true err hdt hr]
  · rw [rename_one_eq_dry nfkc fs src tag err hdt]

/- Orchestration lemmas. -/

theorem runAll_length (nfkc : String → String) (dry : Bool)
    (files : List String) (tagOf : String → TagRead)
    (errOf : String → Option String) :
    ∀ fs, (runAll nfkc dry fs files tagOf errOf).1.length = files.length := by
  induction files with
  | nil => intro fs; rfl
  | cons f rest ih =>
    intro fs
    simp only [runAll, List.length_cons]
    rw [ih]

theorem runAll_status (nfkc : String → String) (dry : Bool)
    (files : List String) (tagOf : String → TagRead)
    (errOf : String → Option String) :
    ∀ fs, ∀ r ∈ (runAll nfkc dry fs files tagOf errOf).1,
      r.status = "renamed" ∨ r.status = "skipped" ∨ r.status = "error" := by
  induction files with
  | nil => intro fs r hr; simp [runAll] at hr
  | cons f rest ih =>
    intro fs r hr
    simp only [runAll] at hr
    rcases List.mem_cons.mp hr with h | h
    · rw [h]
      exact rename_one_status nfkc fs f (tagOf f) dry (errOf f)
    · exact ih _ r h

theorem runAll_preserves (nfkc : String → String) (dry : Bool)
    (tagOf : String → TagRead) (errOf : String → Option String) (s : String) :
    ∀ files fs, s ∈ fs → s ∉ files →
      s ∈ (runAll nfkc dry fs files tagOf errOf).2 := by
  intro files
  induction files with
  | nil => intro fs hs _; exact hs
  | cons f rest ih =>
    intro fs hs hnot
    have hne : s ≠ f := fun h => hnot (by rw [h]; exact List.mem_cons_self _ _)
    have hnr : s ∉ rest := fun h => hnot (List.mem_cons_of_mem _ h)
    simp only [runAll]
    apply ih _ _ hnr
    rcases rename_one_fs nfkc fs f (tagOf f) dry (errOf f) with h | ⟨d, h⟩
    · rw [h]; exact hs
    · rw [h]
      unfold fsRename
      exact List.mem_insert_iff.mpr
        (Or.inr ((List.mem_erase_of_ne hne).mpr hs))

/- Aggregation lemmas. -/

theorem aggregate_foldl (rs : List RenameResult) :
    ∀ t : Nat × Nat × Nat,
      rs.foldl
        (fun t r =>
          if r.status = "renamed" then (t.1 + 1, t.2.1, t.2.2)
          else if r.status = "skipped" then (t.1, t.2.1 + 1, t.2.2)
          else (t.1, t.2.1, t.2.2 + 1)) t =
      (t.1 + rs.countP (fun r => r.status == "renamed"),
       t.2.1 + rs.countP
         (fun r => !(r.status == "renamed") && r.status == "skipped"),
       t.2.2 + rs.countP
         (fun r => !(r.status == "renamed") && !(r.status == "skipped"))) := by
  induction rs with
  | nil => intro t; simp
  | cons r rest ih =>
    intro t
    rw [List.foldl_cons]
    by_cases h1 : r.status = "renamed" <;> by_cases h2 : r.status = "skipped" <;>
      rw [ih] <;>
      simp [List.countP_cons, h1, h2, Prod.ext_iff] <;> omega

theorem countP_partition (rs : List RenameResult) :
    rs.countP (fun r => r.status == "renamed") +
      rs.countP (fun r => !(r.status == "renamed") && r.status == "skipped") +
      rs.countP (fun r => !(r.status == "renamed") && !(r.status == "skipped"))
      = rs.length := by
  induction rs with
  | nil => rfl
  | cons r rest ih =>
    simp only [List.countP_cons, List.length_cons]
    by_cases h1 : r.status = "renamed" <;> by_cases h2 : r.status = "skipped" <;>
      simp [h1, h2] <;> omega

theorem aggregate_spec (rs : List RenameResult)
    (hst : ∀ r ∈ rs,
      r.status = "renamed" ∨ r.status = "skipped" ∨ r.status = "error") :
    (aggregate rs).1 + (aggregate rs).2.1 + (aggregate rs).2.2 = rs.length ∧
    (aggregate rs).2.2 = rs.countP (fun r => r.status == "error") := by
  unfold aggregate
  rw [aggregate_foldl rs (0, 0, 0)]
  simp only [Nat.zero_add]
  constructor
  · exact countP_partition rs
  · apply List.countP_congr
    intro r hr
    rcases hst r hr with h | h | h <;> simp [h]

/-- C1 (code bug): a file already bearing its canonical name is NOT
skipped with "already has desired name" — the file itself occupies the
canonical candidate, so `unique_path` moves on to the "(2)" suffix, the
dead `dst == src` guard never fires, and a second non-dry run over an
already processed directory renames the file again. -/
theorem claim_C1_second_run_renames_again :
    derive_target nfkcAscii ["A - B.mp3"] "A - B.mp3"
        (.ok ⟨some "A", some "B"⟩) = (some "A - B (2).mp3", none) ∧
    rename_one nfkcAscii ["A - B.mp3"] "A - B.mp3"
        (.ok ⟨some "A", some "B"⟩) false none =
      (⟨"A - B.mp3", some "A - B (2).mp3", "renamed", none⟩,
       ["A - B (2).mp3"]) :=
  ⟨by decide, by decide⟩

/-- C3 (code bug): the resolve-then-rename window is not atomic — under
the interleaving where both workers resolve before either renames, both
pick "A - B.mp3", the second rename overwrites the first, and the final
directory holds a single file instead of "A - B.mp3" and
"A - B (2).mp3". -/
theorem claim_C3_resolve_rename_not_atomic :
    (runSched nfkcAscii "t1.mp3" "t2.mp3" (.ok ⟨some "A", some "B"⟩)
        (.ok ⟨some "A", some "B"⟩) ⟨["t1.mp3", "t2.mp3"], none, none⟩
        [.res1, .res2, .ren1, .ren2]).fs = ["A - B.mp3"] ∧
    "A - B (2).mp3" ∉
      (runSched nfkcAscii "t1.mp3" "t2.mp3" (.ok ⟨some "A", some "B"⟩)
        (.ok ⟨some "A", some "B"⟩) ⟨["t1.mp3", "t2.mp3"], none, none⟩
        [.res1, .res2, .ren1, .ren2]).fs :=
  ⟨by decide, by decide⟩

/-- C5 (amended): the missing-tags skip fires exactly when artist and
title are both falsy in the Python sense — absent OR empty; an
empty-string field behaves identically to an absent one, both in the
skip decision and in the fallback text of the name builder. -/
theorem claim_C5_empty_equals_absent (nfkc : String → String)
    (fs : List String) (src : String) (m : Metadata) :
    ((derive_target nfkc fs src (.ok m)).2 =
        some "Missing artist and title tags" ↔
      truthyStr m.artist = false ∧ truthyStr m.title = false) ∧
    (∀ t, build_base_name nfkc none t = build_base_name nfkc (some "") t) ∧
    (∀ a, build_base_name nfkc a none = build_base_name nfkc a (some "")) ∧
    derive_target nfkc fs src (.ok ⟨none, none⟩) =
      derive_target nfkc fs src (.ok ⟨some "", some ""⟩) := by
  refine ⟨?_, fun t => rfl, fun a => rfl, rfl⟩
  simp only [derive_target]
  by_cases hmt : (!truthyStr m.artist && !truthyStr m.title) = true
  · rw [if_pos hmt]
    simp only [Bool.and_eq_true, Bool.not_eq_true'] at hmt
    exact ⟨fun _ => hmt, fun _ => rfl⟩
  · rw [if_neg hmt]
    constructor
    · intro h
      exfalso
      by_cases hds :
          unique_path fs (build_base_name nfkc m.artist m.title) ".mp3" = src
      · rw [if_pos hds] at h
        have hss : "Already has desired name"
            = "Missing artist and title tags" :=
          (Option.some.injEq _ _).mp h
        exact absurd hss (by decide)
      · rw [if_neg hds] at h
        exact Option.noConfusion h
    · intro ⟨h1, h2⟩
      exact absurd (by simp [h1, h2]) hmt

/-- C5 counterexample: metadata carrying artist and title both present
but equal to the empty string IS skipped for missing tags — the code
does not distinguish empty-string fields from absent ones. -/
theorem claim_C5_counterexample :
    derive_target nfkcAscii [] "f.mp3" (.ok ⟨some "", some ""⟩) =
      (none, some "Missing artist and title tags") := by
  decide

/-- C5 witness: the amended skip condition applied with artist present
but empty and title absent. -/
theorem claim_C5_witness :
    (derive_target nfkcAscii [] "f.mp3" (.ok ⟨some "", none⟩)).2 =
      some "Missing artist and title tags" :=
  (claim_C5_empty_equals_absent nfkcAscii [] "f.mp3" ⟨some "", none⟩).1.mpr
    (by decide)

/-- C6: failure isolation — every file yields exactly one outcome; when
exactly one outcome is an error the totals show errors = 1 and
renamed + skipped = N - 1 with all N files accounted for; a failing
rename produces an Error outcome carrying the system detail and leaves
the directory untouched; and a name not among the processed files stays
in the directory to the end of the run. -/
theorem claim_C6_failure_isolation :
    (∀ (nfkc : String → String) (dry : Bool) (fs files : List String)
        (tagOf : String → TagRead) (errOf : String → Option String),
      (runAll nfkc dry fs files tagOf errOf).1.length = files.length) ∧
    (∀ (nfkc : String → String) (dry : Bool) (fs files : List String)
        (tagOf : String → TagRead) (errOf : String → Option String)
        (a s e : Nat),
      aggregate (runAll nfkc dry fs files tagOf errOf).1 = (a, s, e) →
      (runAll nfkc dry fs files tagOf errOf).1.countP
          (fun r => r.status == "error") = 1 →
      e = 1 ∧ a + s = files.length - 1 ∧ a + s + e = files.length) ∧
    (∀ (nfkc : String → String) (fs : List String) (src : String)
        (tag : TagRead) (e d : String),
      derive_target nfkc fs src tag = (some d, none) →
      rename_one nfkc fs src tag false (some e) =
        (⟨src, some d, "error", some e⟩, fs)) ∧
    (∀ (nfkc : String → String) (dry : Bool) (fs files : List String)
        (tagOf : String → TagRead) (errOf : String → Option String)
        (s : String),
      s ∈ fs → s ∉ files → s ∈ (runAll nfkc dry fs files tagOf errOf).2) := by
  refine ⟨fun nfkc dry fs files tagOf errOf =>
      runAll_length nfkc dry files tagOf errOf fs, ?_,
    fun nfkc fs src tag e d h => rename_one_eq_error nfkc fs src tag e h,
    fun nfkc dry fs files tagOf errOf s hs hn =>
      runAll_preserves nfkc dry tagOf errOf s files fs hs hn⟩
  intro nfkc dry fs files tagOf errOf a s e hagg herr
  have hst := runAll_status nfkc dry files tagOf errOf fs
  obtain ⟨hsum, he⟩ := aggregate_spec _ hst
  rw [hagg] at hsum he
  dsimp only at hsum he
  rw [herr] at he
  rw [runAll_length nfkc dry files tagOf errOf fs] at hsum
  exact ⟨he, by omega, by omega⟩

/-- C6 witness: a three-file run in which only the middle file fails its
filesystem rename. -/
theorem claim_C6_witness :
    (1 : Nat) = 1 ∧
      1 + 1 = (["x.mp3", "y.mp3", "z.mp3"] : List String).length - 1 ∧
      1 + 1 + 1 = (["x.mp3", "y.mp3", "z.mp3"] : List String).length :=
  claim_C6_failure_isolation.2.1 nfkcAscii false
    ["x.mp3", "y.mp3", "z.mp3"] ["x.mp3", "y.mp3", "z.mp3"]
    (fun p => if p = "x.mp3" then .ok ⟨some "A", some "B"⟩
      else if p = "y.mp3" then .ok ⟨some "C", some "D"⟩ else .noTag)
    (fun p => if p = "y.mp3" then some "Permission denied" else none)
    1 1 1 (by decide) (by decide)

/-- C7 (amended): any tag-reading exception is converted at the decision
boundary to a skip whose detail is "Exception reading tags: <detail>"
(capitalized as in the code), the worker records it as a skipped outcome
without touching the directory, and the worker is total — it yields an
outcome for every possible tag-reader behaviour. -/
theorem claim_C7_tag_failures_never_escalate (nfkc : String → String)
    (fs : List String) (src : String) (d : String) (dry : Bool)
    (err : Option String) :
    derive_target nfkc fs src (.exn d) =
      (none, some ("Exception reading tags: " ++ d)) ∧
    rename_one nfkc fs src (.exn d) dry err =
      (⟨src, none, "skipped", some ("Exception reading tags: " ++ d)⟩, fs) ∧
    (∀ tag : TagRead, ∃ r fs2, rename_one nfkc fs src tag dry err = (r, fs2)) := by
  refine ⟨rfl, ?_, fun tag => ⟨_, _, rfl⟩⟩
  exact rename_one_eq_skip nfkc fs src _ dry err rfl
    (append_ne_empty_left _ _ (by decide))

/-- C7 counterexample: the skip detail produced by the code is
capitalized, not the claimed lowercase "exception reading tags:". -/
theorem claim_C7_counterexample :
    (derive_target nfkcAscii [] "f.mp3" (.exn "boom")).2 =
      some "Exception reading tags: boom" ∧
    (derive_target nfkcAscii [] "f.mp3" (.exn "boom")).2 ≠
      some "exception reading tags: boom" :=
  ⟨rfl, by decide⟩

/-- C8: dry-run performs no filesystem mutation — the directory contents
after a whole dry run equal the contents before it — and every file with
a computed Rename decision yields a renamed outcome carrying the
computed destination. -/
theorem claim_C8_dry_run :
    (∀ (nfkc : String → String) (fs files : List String)
        (tagOf : String → TagRead) (errOf : String → Option String),
      (runAll nfkc true fs files tagOf errOf).2 = fs) ∧
    (∀ (nfkc : String → String) (fs : List String) (src : String)
        (tag : TagRead) (err : Option String) (d : String),
      derive_target nfkc fs src tag = (some d, none) →
      rename_one nfkc fs src tag true err =
        (⟨src, some d, "renamed", some "dry-run"⟩, fs)) := by
  constructor
  · intro nfkc fs files tagOf errOf
    induction files generalizing fs with
    | nil => rfl
    | cons f rest ih =>
      simp only [runAll]
      rw [rename_one_dry_fs nfkc fs f (tagOf f) (errOf f)]
      exact ih fs
  · intro nfkc fs src tag err d h
    exact rename_one_eq_dry nfkc fs src tag err h

/-- C8 witness: a dry run on a single file computes the rename decision
and reports it renamed without changing the directory. -/
theorem claim_C8_witness :
    rename_one nfkcAscii ["t1.mp3"] "t1.mp3" (.ok ⟨some "A", some "B"⟩)
        true none =
      (⟨"t1.mp3", some "A - B.mp3", "renamed", some "dry-run"⟩,
       ["t1.mp3"]) :=
  claim_C8_dry_run.2 nfkcAscii ["t1.mp3"] "t1.mp3" _ none "A - B.mp3"
    (by decide)

/-- C10: every worker outcome carries one of the statuses "renamed",
"skipped", "error"; its dst is None exactly when it is skipped; and its
src always equals the input path. -/
theorem claim_C10_outcome_invariants (nfkc : String → String)
    (fs : List String) (src : String) (tag : TagRead) (dry : Bool)
    (err : Option String) :
    ((rename_one nfkc fs src tag dry err).1.status = "renamed" ∨
      (rename_one nfkc fs src tag dry err).1.status = "skipped" ∨
      (rename_one nfkc fs src tag dry err).1.status = "error") ∧
    ((rename_one nfkc fs src tag dry err).1.dst = none ↔
      (rename_one nfkc fs src tag dry err).1.status = "skipped") ∧
    (rename_one nfkc fs src tag dry err).1.src = src := by
  have hcases := derive_target_shape nfkc fs src tag
  refine ⟨rename_one_status nfkc fs src tag dry err, ?_, ?_⟩
  · rcases hcases with ⟨r, hdt, hr⟩ | ⟨d, hdt⟩
    · rw [rename_one_eq_skip nfkc fs src tag dry err hdt hr]
      exact ⟨fun _ => rfl, fun _ => rfl⟩
    · cases dry with
      | true =>
        rw [rename_one_eq_dry nfkc fs src tag err hdt]
        exact ⟨fun h => Option.noConfusion h,
          fun h => absurd (show ("renamed" : String) = "skipped" from h)
            (by decide)⟩
      | false =>
        cases err with
        | none =>
          rw [rename_one_eq_renamed nfkc fs src tag hdt]
          exact ⟨fun h => Option.noConfusion h,
            fun h => absurd (show ("renamed" : String) = "skipped" from h)
              (by decide)⟩
        | some e =>
          rw [rename_one_eq_error nfkc fs src tag e hdt]
          exact ⟨fun h => Option.noConfusion h,
            fun h => absurd (show ("error" : String) = "skipped" from h)
              (by decide)⟩
  · rcases hcases with ⟨r, hdt, hr⟩ | ⟨d, hdt⟩
    · rw [rename_one_eq_skip nfkc fs src tag dry err hdt hr]
    · cases dry with
      | true => rw [rename_one_eq_dry nfkc fs src tag err hdt]
      | false =>
        cases err with
        | none => rw [rename_one_eq_renamed nfkc fs src tag hdt]
        | some e => rw [rename_one_eq_error nfkc fs src tag e hdt]

/-- C10 witness: the dst-iff-skipped invariant at a concrete skipped
input. -/
theorem claim_C10_witness :
    ((rename_one nfkcAscii [] "f.mp3" TagRead.noTag false none).1.dst = none ↔
      (rename_one nfkcAscii [] "f.mp3" TagRead.noTag false none).1.status =
        "skipped") :=
  (claim_C10_outcome_invariants nfkcAscii [] "f.mp3" TagRead.noTag false
    none).2.1

/-- C9 witness: distinct suffixes give distinct candidate names at a
concrete pair of suffixes. -/
theorem claim_C9_witness :
    suffixName "X" ".mp3" 2 ≠ suffixName "X" ".mp3" 3 :=
  (claim_C9_termination [] "X" ".mp3" 2).2 2 3 (by decide)

end BatchRename
